import Mathlib

/-!
Verification of the `memcache` LRU cache (Go).

Two source variants are embedded faithfully:

* `V1` — `src/lrucache.go`: `Add` calls `Remove` first, does the size check,
  runs an inline eviction loop, then links the new item at the head.
* `V2` — `src/unnamed/part_000`: node-level `lruCacheItem.Remove` /
  `lruCacheItem.Add` helpers, a same-value fast path in `Add`, and eviction
  through `this.tail.Remove(this)`.

The Go pointer heap is modelled explicitly: nodes live in an association list
keyed by an allocation id (a Go pointer), and every pointer-field mutation is a
store into that heap, performed in the same order as the Go statements.  A nil
pointer dereference is modelled as a `Crash.panicked` result; the unbounded
eviction `for` loop takes fuel and reports `Crash.gas` when it runs out.
-/

/-- A Go `CacheItem` interface value: an identity (the pointer) plus the value
returned by `Size()`.  Two items are equal exactly when the Go interface values
are equal. -/
structure CacheItem where
  id : Nat
  sz : Int
deriving DecidableEq, Repr

/-- `lruCacheItem`: the cache's internal node.  `prev`/`next` are pointers,
modelled as heap ids. -/
structure LruNode where
  cacheItem : CacheItem
  key : String
  prev : Option Nat
  next : Option Nat
deriving DecidableEq, Repr

/-- The heap of allocated nodes: id (pointer) to node.  Nodes are never
deallocated (Go is garbage collected), so stale pointers stay dereferenceable,
exactly as in the source. -/
abbrev Heap := List (Nat × LruNode)

/-- Store to a node's field through the heap. -/
def hset (h : Heap) (i : Nat) (f : LruNode → LruNode) : Heap :=
  h.map (fun p => if p.1 = i then (p.1, f p.2) else p)

/-- `node.prev = v` through pointer `i`. -/
def hsetPrev (h : Heap) (i : Nat) (v : Option Nat) : Heap :=
  hset h i (fun n => { n with prev := v })

/-- `node.next = v` through pointer `i`. -/
def hsetNext (h : Heap) (i : Nat) (v : Option Nat) : Heap :=
  hset h i (fun n => { n with next := v })

/-- Go map deletion `delete(m, k)`. -/
def mapDelete (m : List (String × Nat)) (k : String) : List (String × Nat) :=
  m.filter (fun p => p.1 ≠ k)

/-- Go map insertion `m[k] = v` (overwrites any prior binding). -/
def mapInsert (m : List (String × Nat)) (k : String) (v : Nat) : List (String × Nat) :=
  (k, v) :: mapDelete m k

/-- `lruCache`: the cache state, with the pointer heap made explicit. -/
structure LruCache where
  heap : Heap
  nextId : Nat
  keyValMap : List (String × Nat)
  head : Option Nat
  tail : Option Nat
  maxSize : Int
  curSize : Int
deriving DecidableEq, Repr

/-- `CreateLRUCache(maxsize)`. -/
def createLRUCache (maxsize : Int) : LruCache :=
  { heap := [], nextId := 0, keyValMap := [], head := none, tail := none,
    maxSize := maxsize, curSize := 0 }

/-- Abnormal outcomes: a nil-pointer dereference (Go panic), or fuel exhaustion
in the eviction loop. -/
inductive Crash where
  | panicked
  | gas
deriving DecidableEq, Repr

/-- Dereference a Go pointer; `nil` panics. -/
def deref {α : Type} : Option α → Except Crash α
  | some a => .ok a
  | none => .error .panicked

/-- Read a node through a (non-nil) pointer.  Allocated ids are always present
in the heap, so the `panicked` branch is unreachable in practice. -/
def readNode (c : LruCache) (i : Nat) : Except Crash LruNode :=
  deref (c.heap.lookup i)

namespace V1

/-- `lruCache.Remove` of `src/lrucache.go`, statement by statement. -/
def remove (c : LruCache) (key : String) : Except Crash LruCache :=
  match c.keyValMap.lookup key with
  | none => .ok c
  | some i => do
    let c1 := { c with keyValMap := mapDelete c.keyValMap key }
    let nd ← readNode c1 i
    let c2 := { c1 with curSize := c1.curSize - nd.cacheItem.sz }
    if c2.head = some i then
      match nd.next with
      | some n2 => .ok { c2 with heap := hsetPrev c2.heap n2 none, head := some n2 }
      | none => .ok { c2 with head := none, tail := none }
    else if c2.tail = some i then
      match nd.prev with
      | some p => .ok { c2 with heap := hsetNext c2.heap p none, tail := some p }
      | none => .ok { c2 with head := none, tail := none }
    else do
      let p ← deref nd.prev
      let n2 ← deref nd.next
      .ok { c2 with heap := hsetPrev (hsetNext c2.heap p nd.next) n2 nd.prev }

/-- The eviction `for` loop inside `lruCache.Add` of `src/lrucache.go`:
`for this.curSize + v.Size() > this.maxSize` remove the tail. -/
def evictLoop : Nat → Int → LruCache → Except Crash LruCache
  | 0, _, _ => .error .gas
  | fuel + 1, vsz, c =>
    if c.curSize + vsz > c.maxSize then do
      let t ← deref c.tail
      let nd ← readNode c t
      let c1 := { c with keyValMap := mapDelete c.keyValMap nd.key }
      let c2 := { c1 with curSize := c1.curSize - nd.cacheItem.sz }
      match nd.prev with
      | some p => evictLoop fuel vsz { c2 with heap := hsetNext c2.heap p none, tail := some p }
      | none => evictLoop fuel vsz { c2 with head := none, tail := none }
    else .ok c

/-- `lruCache.Add` of `src/lrucache.go`.  Returns `true` for a `nil` error and
`false` for the `ErrorExceedsMaxSize` error. -/
def add (fuel : Nat) (c : LruCache) (k : String) (v : CacheItem) :
    Except Crash (Bool × LruCache) := do
  let c1 ← remove c k
  let i := c1.nextId
  let c2 := { c1 with heap := (i, ⟨v, k, none, none⟩) :: c1.heap, nextId := i + 1 }
  if v.sz > c2.maxSize then
    .ok (false, c2)
  else do
    let c3 ← evictLoop fuel v.sz c2
    let c4 := { c3 with keyValMap := mapInsert c3.keyValMap k i }
    match c4.head with
    | none => .ok (true, { c4 with head := some i, tail := some i })
    | some h =>
      let c5 := { c4 with heap := hsetNext c4.heap i (some h) }
      let c6 := { c5 with heap := hsetPrev c5.heap h (some i) }
      .ok (true, { c6 with head := some i })

/-- `lruCache.Get` of `src/lrucache.go`. -/
def get (c : LruCache) (key : String) : Except Crash (Option CacheItem × LruCache) :=
  match c.keyValMap.lookup key with
  | none => .ok (none, c)
  | some i => do
    let nd ← readNode c i
    if c.head = some i then
      .ok (some nd.cacheItem, c)
    else do
      let p ← deref nd.prev
      let c1 := { c with heap := hsetNext c.heap p nd.next }
      let c2 := match nd.next with
        | some n2 => { c1 with heap := hsetPrev c1.heap n2 nd.prev }
        | none => c1
      let c3 := { c2 with heap := hsetPrev c2.heap i none }
      let c4 := { c3 with heap := hsetNext c3.heap i c3.head }
      let h ← deref c4.head
      let c5 := { c4 with heap := hsetPrev c4.heap h (some i) }
      .ok (some nd.cacheItem, { c5 with head := some i })

end V1

namespace V2

/-- `lruCacheItem.Remove` of `src/unnamed/part_000`, applied to the node at
heap id `i`. -/
def itemRemove (c : LruCache) (i : Nat) : Except Crash LruCache := do
  let nd ← readNode c i
  let c1 := match nd.prev with
    | some p => { c with heap := hsetNext c.heap p nd.next }
    | none => c
  let c2 := match nd.next with
    | some n2 => { c1 with heap := hsetPrev c1.heap n2 nd.prev }
    | none => c1
  let c3 := if c2.head = some i then { c2 with head := nd.next } else c2
  let c4 := if c3.tail = some i then { c3 with tail := nd.prev } else c3
  let c5 := { c4 with curSize := c4.curSize - nd.cacheItem.sz }
  .ok { c5 with keyValMap := mapDelete c5.keyValMap nd.key }

/-- `lruCacheItem.Add` of `src/unnamed/part_000`, applied to the node at heap
id `i`.  Note the node's own `prev` (and, in the empty-list branch, `next`)
field is left as it was — exactly as in the source. -/
def itemAdd (c : LruCache) (i : Nat) : Except Crash LruCache := do
  let nd ← readNode c i
  let c2 :=
    match c.head with
    | none => { c with head := some i, tail := some i }
    | some h =>
      let c1 := { c with heap := hsetPrev c.heap h (some i) }
      { c1 with heap := hsetNext c1.heap i (some h), head := some i }
  let c3 := { c2 with curSize := c2.curSize + nd.cacheItem.sz }
  .ok { c3 with keyValMap := mapInsert c3.keyValMap nd.key i }

/-- The eviction `for` loop inside `lruCache.Add` of `src/unnamed/part_000`:
`for this.curSize + v.Size() > this.maxSize { this.tail.Remove(this) }`. -/
def evictLoop : Nat → Int → LruCache → Except Crash LruCache
  | 0, _, _ => .error .gas
  | fuel + 1, vsz, c =>
    if c.curSize + vsz > c.maxSize then do
      let t ← deref c.tail
      let c1 ← itemRemove c t
      evictLoop fuel vsz c1
    else .ok c

/-- The part of `lruCache.Add` of `src/unnamed/part_000` after the
present-key block: size check, eviction, creation, insertion. -/
def addRest (fuel : Nat) (c : LruCache) (k : String) (v : CacheItem) :
    Except Crash (Bool × LruCache) := do
  if v.sz > c.maxSize then
    .ok (false, c)
  else do
    let c1 ← evictLoop fuel v.sz c
    let i := c1.nextId
    let c2 := { c1 with heap := (i, ⟨v, k, none, none⟩) :: c1.heap, nextId := i + 1 }
    let c3 ← itemAdd c2 i
    .ok (true, c3)

/-- `lruCache.Add` of `src/unnamed/part_000`.  Returns `true` for a `nil`
error and `false` for the `ErrorExceedsMaxSize` error. -/
def add (fuel : Nat) (c : LruCache) (k : String) (v : CacheItem) :
    Except Crash (Bool × LruCache) :=
  match c.keyValMap.lookup k with
  | some i => do
    let nd ← readNode c i
    let c1 ← itemRemove c i
    if v = nd.cacheItem then do
      let c2 ← itemAdd c1 i
      .ok (true, c2)
    else
      addRest fuel c1 k v
  | none => addRest fuel c k v

/-- `lruCache.Get` of `src/unnamed/part_000`. -/
def get (c : LruCache) (key : String) : Except Crash (Option CacheItem × LruCache) :=
  match c.keyValMap.lookup key with
  | none => .ok (none, c)
  | some i => do
    let nd ← readNode c i
    let c1 ← itemRemove c i
    let c2 ← itemAdd c1 i
    .ok (some nd.cacheItem, c2)

/-- `lruCache.Remove` of `src/unnamed/part_000`. -/
def remove (c : LruCache) (key : String) : Except Crash LruCache :=
  match c.keyValMap.lookup key with
  | none => .ok c
  | some i => itemRemove c i

end V2

/-- A public call on the cache facade. -/
inductive Op where
  | add (k : String) (v : CacheItem)
  | get (k : String)
  | rem (k : String)
deriving DecidableEq, Repr

/-- The externally observable result of one call. -/
inductive Res where
  | addOk
  | addErr
  | got (r : Option CacheItem)
  | removed
deriving DecidableEq, Repr

/-- Fuel handed to one `Add` call's eviction loop.  A well-formed cache never
needs more iterations than it has entries, and the heap bounds the entry
count, so this never runs out on an uncorrupted state. -/
def callFuel (c : LruCache) : Nat := c.heap.length + 1

/-- One public call against the `src/lrucache.go` variant. -/
def stepV1 (c : LruCache) : Op → Except Crash (Res × LruCache)
  | .add k v => do
    let (ok, c1) ← V1.add (callFuel c) c k v
    .ok (if ok then .addOk else .addErr, c1)
  | .get k => do
    let (r, c1) ← V1.get c k
    .ok (.got r, c1)
  | .rem k => do
    let c1 ← V1.remove c k
    .ok (.removed, c1)

/-- One public call against the `src/unnamed/part_000` variant. -/
def stepV2 (c : LruCache) : Op → Except Crash (Res × LruCache)
  | .add k v => do
    let (ok, c1) ← V2.add (callFuel c) c k v
    .ok (if ok then .addOk else .addErr, c1)
  | .get k => do
    let (r, c1) ← V2.get c k
    .ok (.got r, c1)
  | .rem k => do
    let c1 ← V2.remove c k
    .ok (.removed, c1)

/-- Run a sequence of calls, collecting each call's result. -/
def runWith (step : LruCache → Op → Except Crash (Res × LruCache)) :
    LruCache → List Op → Except Crash (List Res × LruCache)
  | c, [] => .ok ([], c)
  | c, op :: ops => do
    let (r, c1) ← step c op
    let (rs, c2) ← runWith step c1 ops
    .ok (r :: rs, c2)

/-- Run a call sequence against the `src/lrucache.go` variant. -/
def runV1 (c : LruCache) (ops : List Op) : Except Crash (List Res × LruCache) :=
  runWith stepV1 c ops

/-- Run a call sequence against the `src/unnamed/part_000` variant. -/
def runV2 (c : LruCache) (ops : List Op) : Except Crash (List Res × LruCache) :=
  runWith stepV2 c ops

/-- Sum of `Size()` over all entries reachable from the key-to-entry index. -/
def mapSizeSum (c : LruCache) : Int :=
  (c.keyValMap.map (fun p =>
    match c.heap.lookup p.2 with
    | some n => n.cacheItem.sz
    | none => 0)).sum

/-- Presence-and-value observation: the `CacheItem` stored under a key, if
any. -/
def lookupValue (c : LruCache) (k : String) : Option CacheItem :=
  (c.keyValMap.lookup k).bind (fun i => (c.heap.lookup i).map LruNode.cacheItem)

/-- The list of results a completed run produced. -/
def resultsOf (r : Except Crash (List Res × LruCache)) : Option (List Res) :=
  match r with
  | .ok (rs, _) => some rs
  | .error _ => none

/-- Evaluate a boolean observation on the final state of a completed run. -/
def onFinal (r : Except Crash (List Res × LruCache)) (p : LruCache → Bool) : Bool :=
  match r with
  | .ok (_, c) => p c
  | .error _ => false

/-- The success/failure outcomes of the `Add` calls of a run, in order
(`true` = nil error, `false` = `ErrorExceedsMaxSize`). -/
def addResults (rs : List Res) : List Bool :=
  rs.filterMap (fun r =>
    match r with
    | .addOk => some true
    | .addErr => some false
    | _ => none)

/-- The call supplies a value of non-negative `Size()` (the `CacheItem`
contract). -/
def opSizeNonneg (op : Op) : Bool :=
  match op with
  | .add _ v => decide (0 ≤ v.sz)
  | _ => true

/-- The call supplies a value of strictly positive `Size()`. -/
def opSizePos (op : Op) : Bool :=
  match op with
  | .add _ v => decide (0 < v.sz)
  | _ => true

/-- Two heaps agree on the immutable fields (`cacheItem`, `key`) of every
node; pointer-field stores preserve this. -/
def eqCI (h1 h2 : Heap) : Prop :=
  ∀ i, (List.lookup i h1).map (fun n => (n.cacheItem, n.key)) =
       (List.lookup i h2).map (fun n => (n.cacheItem, n.key))

/-- Every allocated node reports a non-negative size. -/
def heapNonneg (h : Heap) : Prop :=
  ∀ i nd, List.lookup i h = some nd → 0 ≤ nd.cacheItem.sz

/-- Invariants of the `part_000` variant that survive even the
list-corruption bugs: the index is coherent with the heap and every stored
value passed the admission size check. -/
structure Inv2 (cap : Int) (c : LruCache) : Prop where
  maxEq : c.maxSize = cap
  coher : ∀ k i, c.keyValMap.lookup k = some i →
    ∃ nd, c.heap.lookup i = some nd ∧ nd.key = k
  stored : ∀ k i nd, c.keyValMap.lookup k = some i →
    c.heap.lookup i = some nd → nd.cacheItem.sz ≤ cap
  fresh : ∀ i nd, c.heap.lookup i = some nd → i < c.nextId

/-- The result every call gets on a cache that can never store anything:
adds fail, gets miss, removes are no-ops. -/
def deadRes : Op → Res
  | .add _ _ => .addErr
  | .get _ => .got none
  | .rem _ => .removed

theorem hset_cons (a : Nat) (nd : LruNode) (t : Heap) (j : Nat) (f : LruNode → LruNode) :
    hset ((a, nd) :: t) j f =
      (if a = j then (a, f nd) else (a, nd)) :: hset t j f := by
  simp [hset]

theorem lookup_hset (i j : Nat) (f : LruNode → LruNode) (h : Heap) :
    List.lookup i (hset h j f) =
      if i = j then (List.lookup i h).map f else List.lookup i h := by
  induction h with
  | nil => simp [hset]
  | cons p t ih =>
    obtain ⟨a, nd⟩ := p
    rw [hset_cons]
    by_cases hia : i = a
    · subst hia
      by_cases hij : i = j
      · subst hij
        simp [List.lookup_cons]
      · rw [if_neg hij]
        simp [List.lookup_cons, hij]
    · have hbeq : (i == a) = false := by
        simp [hia]
      by_cases hij : i = j
      · subst hij
        by_cases haj : a = i
        · exact absurd haj.symm hia
        · rw [if_neg haj]
          simp [List.lookup_cons, hbeq, ih]
      · have hbeq2 : (i == j) = false := by
          simp [hij]
        by_cases haj : a = j <;>
          simp [haj, List.lookup_cons, hbeq, hbeq2, ih, hij]

theorem lookup_mapDelete (m : List (String × Nat)) (k k2 : String) :
    List.lookup k2 (mapDelete m k) = if k2 = k then none else List.lookup k2 m := by
  induction m with
  | nil => simp [mapDelete]
  | cons p t ih =>
    obtain ⟨a, v⟩ := p
    have hfil : mapDelete ((a, v) :: t) k =
        if a = k then mapDelete t k else (a, v) :: mapDelete t k := by
      by_cases hak : a = k <;> simp [mapDelete, List.filter, hak]
    rw [hfil]
    by_cases hak : a = k
    · subst hak
      by_cases h2a : k2 = a
      · subst h2a
        simp [ih]
      · have hbeq : (k2 == a) = false := by simp [h2a]
        simp [ih, h2a, List.lookup_cons, hbeq]
    · by_cases h2a : k2 = a
      · subst h2a
        simp [List.lookup_cons, hak]
      · have hbeq : (k2 == a) = false := by simp [h2a]
        simp [hak, List.lookup_cons, hbeq, ih]

theorem lookup_mapInsert (m : List (String × Nat)) (k k2 : String) (v : Nat) :
    List.lookup k2 (mapInsert m k v) = if k2 = k then some v else List.lookup k2 m := by
  by_cases h : k2 = k
  · subst h
    simp [mapInsert, List.lookup_cons]
  · have hbeq : (k2 == k) = false := by simp [h]
    simp [mapInsert, List.lookup_cons, hbeq, lookup_mapDelete, h]

theorem eqCI_refl (h : Heap) : eqCI h h :=
  fun _ => rfl

theorem eqCI_trans {h1 h2 h3 : Heap} (a : eqCI h1 h2) (b : eqCI h2 h3) : eqCI h1 h3 :=
  fun i => (a i).trans (b i)

theorem eqCI_hset {h h' : Heap} {j : Nat} {f : LruNode → LruNode}
    (hf : ∀ n, (f n).cacheItem = n.cacheItem ∧ (f n).key = n.key)
    (he : eqCI h h') : eqCI (hset h j f) h' := by
  intro i
  rw [lookup_hset]
  by_cases hij : i = j
  · rw [if_pos hij, ← he i]
    cases List.lookup i h with
    | none => rfl
    | some nd => simp [(hf nd).1, (hf nd).2]
  · rw [if_neg hij]
    exact he i

theorem eqCI_hsetPrev {h h' : Heap} {j : Nat} {v : Option Nat} (he : eqCI h h') :
    eqCI (hsetPrev h j v) h' :=
  eqCI_hset (fun _ => ⟨rfl, rfl⟩) he

theorem eqCI_hsetNext {h h' : Heap} {j : Nat} {v : Option Nat} (he : eqCI h h') :
    eqCI (hsetNext h j v) h' :=
  eqCI_hset (fun _ => ⟨rfl, rfl⟩) he

theorem eqCI_lookup {h1 h2 : Heap} (he : eqCI h1 h2) {i : Nat} {nd : LruNode}
    (hl : List.lookup i h1 = some nd) :
    ∃ nd2, List.lookup i h2 = some nd2 ∧ nd2.cacheItem = nd.cacheItem ∧ nd2.key = nd.key := by
  have := he i
  rw [hl] at this
  cases h2l : List.lookup i h2 with
  | none => rw [h2l] at this; simp at this
  | some nd2 =>
    rw [h2l] at this
    simp only [Option.map_some', Option.some.injEq, Prod.mk.injEq] at this
    exact ⟨nd2, rfl, this.1.symm, this.2.symm⟩

theorem eqCI_lookup_rev {h1 h2 : Heap} (he : eqCI h1 h2) {i : Nat} {nd : LruNode}
    (hl : List.lookup i h2 = some nd) :
    ∃ nd2, List.lookup i h1 = some nd2 ∧ nd2.cacheItem = nd.cacheItem ∧ nd2.key = nd.key := by
  have := he i
  rw [hl] at this
  cases h1l : List.lookup i h1 with
  | none => rw [h1l] at this; simp at this
  | some nd2 =>
    rw [h1l] at this
    simp only [Option.map_some', Option.some.injEq, Prod.mk.injEq] at this
    exact ⟨nd2, rfl, this.1, this.2⟩

theorem heapNonneg_of_eqCI {h1 h2 : Heap} (he : eqCI h1 h2) (hn : heapNonneg h2) :
    heapNonneg h1 := by
  intro i nd hl
  obtain ⟨nd2, hl2, hci, _⟩ := eqCI_lookup he hl
  rw [← hci]
  exact hn i nd2 hl2

theorem ok_bind {α β : Type} (a : α) (f : α → Except Crash β) :
    (Except.ok a >>= f) = f a :=
  rfl

theorem error_bind {α β : Type} (e : Crash) (f : α → Except Crash β) :
    ((Except.error e : Except Crash α) >>= f) = Except.error e :=
  rfl

theorem itemRemove_spec (c : LruCache) (i : Nat) (nd : LruNode)
    (h : c.heap.lookup i = some nd) :
    ∃ c', V2.itemRemove c i = .ok c' ∧
      c'.curSize = c.curSize - nd.cacheItem.sz ∧
      c'.keyValMap = mapDelete c.keyValMap nd.key ∧
      c'.maxSize = c.maxSize ∧
      c'.nextId = c.nextId ∧
      eqCI c'.heap c.heap := by
  obtain ⟨ci, ky, pv, nx⟩ := nd
  unfold V2.itemRemove readNode
  rw [h]
  simp only [deref, ok_bind]
  cases pv <;> cases nx <;>
    simp only [] <;>
    split_ifs <;>
    exact ⟨_, rfl, rfl, rfl, rfl, rfl, by
      solve_by_elim [eqCI_refl, eqCI_hsetPrev, eqCI_hsetNext]⟩

theorem itemRemove_ok {c c' : LruCache} {i : Nat} (h : V2.itemRemove c i = .ok c') :
    ∃ nd, c.heap.lookup i = some nd ∧
      c'.curSize = c.curSize - nd.cacheItem.sz ∧
      c'.keyValMap = mapDelete c.keyValMap nd.key ∧
      c'.maxSize = c.maxSize ∧
      c'.nextId = c.nextId ∧
      eqCI c'.heap c.heap := by
  cases hl : c.heap.lookup i with
  | none =>
    unfold V2.itemRemove readNode at h
    rw [hl] at h
    exact Except.noConfusion h
  | some nd =>
    obtain ⟨c2, hspec, h1, h2, h3, h4, h5⟩ := itemRemove_spec c i nd hl
    rw [hspec] at h
    obtain rfl : c2 = c' := by
      injection h
    exact ⟨nd, rfl, h1, h2, h3, h4, h5⟩

theorem itemAdd_spec (c : LruCache) (i : Nat) (nd : LruNode)
    (h : c.heap.lookup i = some nd) :
    ∃ c', V2.itemAdd c i = .ok c' ∧
      c'.curSize = c.curSize + nd.cacheItem.sz ∧
      c'.keyValMap = mapInsert c.keyValMap nd.key i ∧
      c'.maxSize = c.maxSize ∧
      c'.nextId = c.nextId ∧
      c'.head = some i ∧
      eqCI c'.heap c.heap := by
  unfold V2.itemAdd readNode
  rw [h]
  simp only [deref, ok_bind]
  cases c.head <;>
    exact ⟨_, rfl, rfl, rfl, rfl, rfl, rfl, by
      solve_by_elim [eqCI_refl, eqCI_hsetPrev, eqCI_hsetNext]⟩

theorem itemAdd_ok {c c' : LruCache} {i : Nat} (h : V2.itemAdd c i = .ok c') :
    ∃ nd, c.heap.lookup i = some nd ∧
      c'.curSize = c.curSize + nd.cacheItem.sz ∧
      c'.keyValMap = mapInsert c.keyValMap nd.key i ∧
      c'.maxSize = c.maxSize ∧
      c'.nextId = c.nextId ∧
      c'.head = some i ∧
      eqCI c'.heap c.heap := by
  cases hl : c.heap.lookup i with
  | none =>
    unfold V2.itemAdd readNode at h
    rw [hl] at h
    exact Except.noConfusion h
  | some nd =>
    obtain ⟨c2, hspec, h1, h2, h3, h4, h5, h6⟩ := itemAdd_spec c i nd hl
    rw [hspec] at h
    obtain rfl : c2 = c' := by
      injection h
    exact ⟨nd, rfl, h1, h2, h3, h4, h5, h6⟩

theorem evictLoopV2_ok : ∀ (fuel : Nat) (vsz : Int) (c c' : LruCache),
    V2.evictLoop fuel vsz c = .ok c' →
    ¬(c'.curSize + vsz > c'.maxSize) ∧
    c'.maxSize = c.maxSize ∧
    c'.nextId = c.nextId ∧
    eqCI c'.heap c.heap ∧
    (∀ k2 i, c'.keyValMap.lookup k2 = some i → c.keyValMap.lookup k2 = some i) ∧
    (heapNonneg c.heap → c'.curSize ≤ c.curSize) := by
  intro fuel
  induction fuel with
  | zero =>
    intro vsz c c' h
    exact Except.noConfusion h
  | succ n ih =>
    intro vsz c c' h
    unfold V2.evictLoop at h
    by_cases hc : c.curSize + vsz > c.maxSize
    · rw [if_pos hc] at h
      cases ht : c.tail with
      | none =>
        rw [ht] at h
        exact Except.noConfusion h
      | some t =>
        rw [ht] at h
        simp only [deref, ok_bind] at h
        cases hir : V2.itemRemove c t with
        | error e =>
          rw [hir] at h
          exact Except.noConfusion h
        | ok c1 =>
          rw [hir, ok_bind] at h
          obtain ⟨nd, hl, hcur, hmap, hmax, hnid, hci⟩ := itemRemove_ok hir
          obtain ⟨h1, h2, h3, h4, h5, h6⟩ := ih vsz c1 c' h
          refine ⟨h1, h2.trans hmax, h3.trans hnid, eqCI_trans h4 hci, ?_, ?_⟩
          · intro k2 i hk
            have hsub := h5 k2 i hk
            rw [hmap, lookup_mapDelete] at hsub
            by_cases hkk : k2 = nd.key
            · rw [if_pos hkk] at hsub
              exact Option.noConfusion hsub
            · rwa [if_neg hkk] at hsub
          · intro hnn
            have hnn1 : heapNonneg c1.heap := heapNonneg_of_eqCI hci hnn
            have hle := h6 hnn1
            have hs := hnn _ _ hl
            omega
    · rw [if_neg hc] at h
      obtain rfl : c = c' := by injection h
      exact ⟨hc, rfl, rfl, eqCI_refl _, fun _ _ hk => hk, fun _ => le_refl _⟩

theorem mapDelete_sub {m : List (String × Nat)} {k k2 : String} {i : Nat}
    (h : List.lookup k2 (mapDelete m k) = some i) : List.lookup k2 m = some i := by
  rw [lookup_mapDelete] at h
  by_cases hkk : k2 = k
  · rw [if_pos hkk] at h
    exact Option.noConfusion h
  · rwa [if_neg hkk] at h

theorem inv2_transfer {cap : Int} {c c' : LruCache} (hI : Inv2 cap c)
    (hmax : c'.maxSize = c.maxSize)
    (hnid : c'.nextId = c.nextId)
    (hci : eqCI c'.heap c.heap)
    (hsub : ∀ k i, c'.keyValMap.lookup k = some i → c.keyValMap.lookup k = some i) :
    Inv2 cap c' := by
  constructor
  · rw [hmax]
    exact hI.maxEq
  · intro k i hk
    obtain ⟨nd, hnd, hkey⟩ := hI.coher k i (hsub k i hk)
    obtain ⟨nd2, hnd2, _, hk2⟩ := eqCI_lookup_rev hci hnd
    exact ⟨nd2, hnd2, hk2.trans hkey⟩
  · intro k i nd hk hnd
    obtain ⟨nd2, hnd2, hc2, _⟩ := eqCI_lookup hci hnd
    have hst := hI.stored k i nd2 (hsub k i hk) hnd2
    rw [← hc2]
    exact hst
  · intro i nd hnd
    obtain ⟨nd2, hnd2, _, _⟩ := eqCI_lookup hci hnd
    rw [hnid]
    exact hI.fresh i nd2 hnd2

theorem inv2_insert {cap : Int} {c c' : LruCache} {k : String} {i : Nat} (hI : Inv2 cap c)
    (hmax : c'.maxSize = c.maxSize)
    (hnid : c'.nextId = c.nextId)
    (hci : eqCI c'.heap c.heap)
    (hmap : ∀ k2 j, c'.keyValMap.lookup k2 = some j →
      (k2 = k ∧ j = i) ∨ c.keyValMap.lookup k2 = some j)
    (hnode : ∃ nd, c.heap.lookup i = some nd ∧ nd.key = k ∧ nd.cacheItem.sz ≤ cap) :
    Inv2 cap c' := by
  obtain ⟨nd, hnd, hkey, hsz⟩ := hnode
  constructor
  · rw [hmax]
    exact hI.maxEq
  · intro k2 j hk
    rcases hmap k2 j hk with ⟨rfl, rfl⟩ | hold
    · obtain ⟨nd2, hnd2, _, hk2⟩ := eqCI_lookup_rev hci hnd
      exact ⟨nd2, hnd2, hk2.trans hkey⟩
    · obtain ⟨nd2, hnd2, hkey2⟩ := hI.coher k2 j hold
      obtain ⟨nd3, hnd3, _, hk3⟩ := eqCI_lookup_rev hci hnd2
      exact ⟨nd3, hnd3, hk3.trans hkey2⟩
  · intro k2 j nd4 hk hnd4
    obtain ⟨nd2, hnd2, hc2, _⟩ := eqCI_lookup hci hnd4
    rcases hmap k2 j hk with ⟨rfl, rfl⟩ | hold
    · rw [hnd] at hnd2
      have heq : nd = nd2 := by injection hnd2
      rw [← hc2, ← heq]
      exact hsz
    · have hst := hI.stored k2 j nd2 hold hnd2
      rw [← hc2]
      exact hst
  · intro j nd2 hnd2
    obtain ⟨nd3, hnd3, _, _⟩ := eqCI_lookup hci hnd2
    rw [hnid]
    exact hI.fresh j nd3 hnd3

theorem inv2_alloc {cap : Int} {c : LruCache} (hI : Inv2 cap c) (v : CacheItem) (k : String) :
    Inv2 cap { c with heap := (c.nextId, ⟨v, k, none, none⟩) :: c.heap,
                      nextId := c.nextId + 1 } := by
  have lookup_pre : ∀ j, j ≠ c.nextId →
      List.lookup j ((c.nextId, (⟨v, k, none, none⟩ : LruNode)) :: c.heap) =
        List.lookup j c.heap := by
    intro j hj
    have : (j == c.nextId) = false := by simp [hj]
    simp [List.lookup_cons, this]
  constructor
  · exact hI.maxEq
  · intro k2 i hk
    obtain ⟨nd, hnd, hkey⟩ := hI.coher k2 i hk
    have hi : i < c.nextId := hI.fresh i nd hnd
    refine ⟨nd, ?_, hkey⟩
    rw [lookup_pre i (Nat.ne_of_lt hi)]
    exact hnd
  · intro k2 i nd hk hnd
    have hlt : i < c.nextId := by
      obtain ⟨nd2, hnd2, _⟩ := hI.coher k2 i hk
      exact hI.fresh i nd2 hnd2
    rw [lookup_pre i (Nat.ne_of_lt hlt)] at hnd
    exact hI.stored k2 i nd hk hnd
  · intro i nd hnd
    show i < c.nextId + 1
    by_cases hi : i = c.nextId
    · omega
    · rw [lookup_pre i hi] at hnd
      have := hI.fresh i nd hnd
      omega

theorem bind_ok_iff {α β : Type} {x : Except Crash α} {f : α → Except Crash β} {r : β} :
    (x >>= f) = .ok r ↔ ∃ a, x = .ok a ∧ f a = .ok r := by
  cases x with
  | ok a => simp [ok_bind]
  | error e => simp [error_bind]

theorem addRestV2_ok {fuel : Nat} {c c' : LruCache} {k : String} {v : CacheItem} {b : Bool}
    (h : V2.addRest fuel c k v = .ok (b, c')) :
    (b = false ↔ v.sz > c.maxSize) ∧
    (b = false → c' = c) ∧
    (b = true → ∃ c1 : LruCache,
      ¬(c1.curSize + v.sz > c1.maxSize) ∧
      c1.maxSize = c.maxSize ∧
      c1.nextId = c.nextId ∧
      eqCI c1.heap c.heap ∧
      (∀ k2 i, c1.keyValMap.lookup k2 = some i → c.keyValMap.lookup k2 = some i) ∧
      (heapNonneg c.heap → c1.curSize ≤ c.curSize) ∧
      c'.curSize = c1.curSize + v.sz ∧
      c'.keyValMap = mapInsert c1.keyValMap k c1.nextId ∧
      c'.maxSize = c1.maxSize ∧
      c'.nextId = c1.nextId + 1 ∧
      c'.head = some c1.nextId ∧
      eqCI c'.heap ((c1.nextId, ⟨v, k, none, none⟩) :: c1.heap)) := by
  unfold V2.addRest at h
  by_cases hv : v.sz > c.maxSize
  · rw [if_pos hv] at h
    simp only [Except.ok.injEq, Prod.mk.injEq] at h
    obtain ⟨hb, hc⟩ := h
    subst hb
    subst hc
    refine ⟨by simp [hv], fun _ => rfl, fun hcontra => by simp at hcontra⟩
  · rw [if_neg hv] at h
    simp only [bind_ok_iff] at h
    obtain ⟨c1, hev, h⟩ := h
    obtain ⟨c3, hia, h⟩ := h
    simp only [Except.ok.injEq, Prod.mk.injEq] at h
    obtain ⟨hb, hc⟩ := h
    subst hb
    subst hc
    obtain ⟨hcond, hmax1, hnid1, hci1, hsub1, hmono1⟩ := evictLoopV2_ok fuel v.sz c c1 hev
    obtain ⟨nd, hnd, hcur3, hmap3, hmax3, hnid3, hhead3, hci3⟩ := itemAdd_ok hia
    simp only [List.lookup_cons_self] at hnd
    have hndeq : nd = ⟨v, k, none, none⟩ := by
      injection hnd with h2
      exact h2.symm
    subst hndeq
    refine ⟨by simp [hv], by simp, fun _ => ⟨c1, hcond, hmax1, hnid1, hci1, hsub1, hmono1,
      ?_, ?_, ?_, ?_, ?_, ?_⟩⟩
    · exact hcur3
    · exact hmap3
    · exact hmax3
    · exact hnid3
    · exact hhead3
    · exact hci3

theorem addRest_inv2 {cap : Int} {fuel : Nat} {c c' : LruCache} {k : String} {v : CacheItem}
    {b : Bool} (hI : Inv2 cap c) (h : V2.addRest fuel c k v = .ok (b, c')) :
    (b = false ↔ cap < v.sz) ∧ Inv2 cap c' := by
  obtain ⟨hiff, herr, hsucc⟩ := addRestV2_ok h
  rw [hI.maxEq] at hiff
  refine ⟨hiff, ?_⟩
  cases b with
  | false =>
    rw [herr rfl]
    exact hI
  | true =>
    obtain ⟨c1, hcond, hmax1, hnid1, hci1, hsub1, _, hcur, hmap, hmax, hnid, hhead, hci⟩ :=
      hsucc rfl
    have hI1 : Inv2 cap c1 := inv2_transfer hI hmax1 hnid1 hci1 hsub1
    have hIA : Inv2 cap { c1 with heap := (c1.nextId, ⟨v, k, none, none⟩) :: c1.heap,
                                  nextId := c1.nextId + 1 } := inv2_alloc hI1 v k
    have hszv : v.sz ≤ cap := by
      have hnot : ¬(cap < v.sz) := fun hc => absurd (hiff.mpr hc) (by simp)
      omega
    refine inv2_insert (k := k) (i := c1.nextId) hIA ?_ ?_ ?_ ?_ ?_
    · rw [hmax, hmax1]
    · rw [hnid]
    · exact hci
    · intro k2 j hk
      rw [hmap, lookup_mapInsert] at hk
      by_cases hkk : k2 = k
      · rw [if_pos hkk] at hk
        exact Or.inl ⟨hkk, (Option.some.inj hk).symm⟩
      · rw [if_neg hkk] at hk
        exact Or.inr hk
    · refine ⟨⟨v, k, none, none⟩, ?_, rfl, hszv⟩
      simp [List.lookup_cons_self]

theorem addV2_ok {cap : Int} {fuel : Nat} {c c' : LruCache} {k : String} {v : CacheItem}
    {b : Bool} (hI : Inv2 cap c) (h : V2.add fuel c k v = .ok (b, c')) :
    (b = false ↔ cap < v.sz) ∧ Inv2 cap c' := by
  unfold V2.add at h
  cases hmk : c.keyValMap.lookup k with
  | none =>
    rw [hmk] at h
    exact addRest_inv2 hI h
  | some i =>
    rw [hmk] at h
    obtain ⟨nd, hnd, hkey⟩ := hI.coher k i hmk
    simp only [readNode, hnd, deref, ok_bind, bind_ok_iff] at h
    obtain ⟨c1, hir, h⟩ := h
    obtain ⟨nd2, hnd2, hcur1, hmap1, hmax1, hnid1, hci1⟩ := itemRemove_ok hir
    rw [hnd] at hnd2
    obtain rfl : nd = nd2 := by injection hnd2
    have hI1 : Inv2 cap c1 := inv2_transfer hI hmax1 hnid1 hci1 (fun k2 j hk => by
      rw [hmap1] at hk
      exact mapDelete_sub hk)
    by_cases hvv : v = nd.cacheItem
    · rw [if_pos hvv] at h
      simp only [bind_ok_iff] at h
      obtain ⟨c2, hia, heq⟩ := h
      simp only [Except.ok.injEq, Prod.mk.injEq] at heq
      obtain ⟨hb, hc⟩ := heq
      subst hb
      subst hc
      have hsz : nd.cacheItem.sz ≤ cap := hI.stored k i nd hmk hnd
      constructor
      · constructor
        · intro hb
          exact absurd hb (by simp)
        · intro hlt
          rw [hvv] at hlt
          exact absurd hlt (not_lt.mpr hsz)
      · obtain ⟨nd3, hnd3, hci3, hkey3⟩ := eqCI_lookup_rev hci1 hnd
        obtain ⟨nd4, hnd4, hcur2, hmap2, hmax2, hnid2, hhead2, hciA⟩ := itemAdd_ok hia
        rw [hnd3] at hnd4
        obtain rfl : nd3 = nd4 := by injection hnd4
        refine inv2_insert (k := k) (i := i) hI1 hmax2 hnid2 hciA ?_ ?_
        · intro k2 j hk
          rw [hmap2, lookup_mapInsert] at hk
          by_cases hkk : k2 = nd3.key
          · rw [if_pos hkk] at hk
            exact Or.inl ⟨hkk.trans (hkey3.trans hkey), (Option.some.inj hk).symm⟩
          · rw [if_neg hkk] at hk
            exact Or.inr hk
        · exact ⟨nd3, hnd3, hkey3.trans hkey, by rw [hci3]; exact hsz⟩
    · rw [if_neg hvv] at h
      exact addRest_inv2 hI1 h

theorem getV2_ok {c c' : LruCache} {k : String} {o : Option CacheItem}
    (h : V2.get c k = .ok (o, c')) :
    c'.curSize = c.curSize ∧ c'.maxSize = c.maxSize ∧ c'.nextId = c.nextId ∧
    eqCI c'.heap c.heap ∧ (∀ cap, Inv2 cap c → Inv2 cap c') := by
  unfold V2.get at h
  cases hmk : c.keyValMap.lookup k with
  | none =>
    rw [hmk] at h
    simp only [Except.ok.injEq, Prod.mk.injEq] at h
    obtain ⟨_, hc⟩ := h
    subst hc
    exact ⟨rfl, rfl, rfl, eqCI_refl _, fun _ hI => hI⟩
  | some i =>
    rw [hmk] at h
    cases hnd : c.heap.lookup i with
    | none =>
      simp only [readNode, hnd, deref, error_bind] at h
      exact Except.noConfusion h
    | some nd =>
      simp only [readNode, hnd, deref, ok_bind, bind_ok_iff] at h
      obtain ⟨c1, hir, h⟩ := h
      obtain ⟨c2, hia, heq⟩ := h
      simp only [Except.ok.injEq, Prod.mk.injEq] at heq
      obtain ⟨_, hc⟩ := heq
      subst hc
      obtain ⟨nd2, hnd2, hcur1, hmap1, hmax1, hnid1, hci1⟩ := itemRemove_ok hir
      rw [hnd] at hnd2
      obtain rfl : nd = nd2 := by injection hnd2
      obtain ⟨nd4, hnd4, hcur2, hmap2, hmax2, hnid2, hhead2, hciA⟩ := itemAdd_ok hia
      obtain ⟨nd3, hnd3, hci3, hkey3⟩ := eqCI_lookup_rev hci1 hnd
      rw [hnd3] at hnd4
      obtain rfl : nd3 = nd4 := by injection hnd4
      refine ⟨?_, hmax2.trans hmax1, hnid2.trans hnid1, eqCI_trans hciA hci1, ?_⟩
      · rw [hcur2, hcur1, hci3]
        ring
      · intro cap hI
        have hI1 : Inv2 cap c1 := inv2_transfer hI hmax1 hnid1 hci1 (fun k2 j hk => by
          rw [hmap1] at hk
          exact mapDelete_sub hk)
        have hkey : nd.key = k := by
          obtain ⟨nd5, hnd5, hkey5⟩ := hI.coher k i hmk
          rw [hnd] at hnd5
          obtain rfl : nd = nd5 := by injection hnd5
          exact hkey5
        have hsz : nd.cacheItem.sz ≤ cap := hI.stored k i nd hmk hnd
        refine inv2_insert (k := k) (i := i) hI1 hmax2 hnid2 hciA ?_ ?_
        · intro k2 j hk
          rw [hmap2, lookup_mapInsert] at hk
          by_cases hkk : k2 = nd3.key
          · rw [if_pos hkk] at hk
            exact Or.inl ⟨hkk.trans (hkey3.trans hkey), (Option.some.inj hk).symm⟩
          · rw [if_neg hkk] at hk
            exact Or.inr hk
        · exact ⟨nd3, hnd3, hkey3.trans hkey, by rw [hci3]; exact hsz⟩

theorem removeV2_ok {c c' : LruCache} {k : String} (h : V2.remove c k = .ok c') :
    c'.maxSize = c.maxSize ∧ c'.nextId = c.nextId ∧ eqCI c'.heap c.heap ∧
    (heapNonneg c.heap → c'.curSize ≤ c.curSize) ∧
    (∀ cap, Inv2 cap c → Inv2 cap c') := by
  unfold V2.remove at h
  cases hmk : c.keyValMap.lookup k with
  | none =>
    rw [hmk] at h
    obtain rfl : c = c' := by injection h
    exact ⟨rfl, rfl, eqCI_refl _, fun _ => le_refl _, fun _ hI => hI⟩
  | some i =>
    rw [hmk] at h
    obtain ⟨nd, hnd, hcur1, hmap1, hmax1, hnid1, hci1⟩ := itemRemove_ok h
    refine ⟨hmax1, hnid1, hci1, ?_, ?_⟩
    · intro hnn
      have := hnn i nd hnd
      omega
    · intro cap hI
      exact inv2_transfer hI hmax1 hnid1 hci1 (fun k2 j hk => by
        rw [hmap1] at hk
        exact mapDelete_sub hk)

theorem removeV1_ok {c c' : LruCache} {k : String} (h : V1.remove c k = .ok c') :
    c'.maxSize = c.maxSize ∧ c'.nextId = c.nextId ∧ eqCI c'.heap c.heap ∧
    (heapNonneg c.heap → c'.curSize ≤ c.curSize) := by
  unfold V1.remove at h
  cases hmk : c.keyValMap.lookup k with
  | none =>
    rw [hmk] at h
    obtain rfl : c = c' := by injection h
    exact ⟨rfl, rfl, eqCI_refl _, fun _ => le_refl _⟩
  | some i =>
    rw [hmk] at h
    cases hnd : c.heap.lookup i with
    | none =>
      simp only [readNode, hnd, deref, error_bind] at h
      exact Except.noConfusion h
    | some nd =>
      obtain ⟨ci, ky, pv, nx⟩ := nd
      have hsz : heapNonneg c.heap → 0 ≤ ci.sz := fun hnn => hnn i _ hnd
      cases pv <;> cases nx <;>
        simp only [readNode, hnd, deref, ok_bind, error_bind] at h <;>
        split_ifs at h <;>
        first
        | exact Except.noConfusion h
        | · obtain rfl : _ = c' := by injection h
            refine ⟨rfl, rfl, ?_, fun hnn => by have := hsz hnn; dsimp only; omega⟩
            solve_by_elim [eqCI_refl, eqCI_hsetPrev, eqCI_hsetNext]

theorem heapNonneg_cons {h : Heap} {i : Nat} {nd : LruNode} (hnd : 0 ≤ nd.cacheItem.sz)
    (hnn : heapNonneg h) : heapNonneg ((i, nd) :: h) := by
  intro j nd2 hl
  rw [List.lookup_cons] at hl
  cases hji : j == i with
  | true =>
    rw [hji] at hl
    obtain rfl : nd = nd2 := by injection hl
    exact hnd
  | false =>
    rw [hji] at hl
    exact hnn j nd2 hl

theorem evictLoopV1_ok : ∀ (fuel : Nat) (vsz : Int) (c c' : LruCache),
    V1.evictLoop fuel vsz c = .ok c' →
    c'.maxSize = c.maxSize ∧ c'.nextId = c.nextId ∧ eqCI c'.heap c.heap ∧
    (heapNonneg c.heap → c'.curSize ≤ c.curSize) := by
  intro fuel
  induction fuel with
  | zero =>
    intro vsz c c' h
    exact Except.noConfusion h
  | succ n ih =>
    intro vsz c c' h
    unfold V1.evictLoop at h
    by_cases hc : c.curSize + vsz > c.maxSize
    · rw [if_pos hc] at h
      cases ht : c.tail with
      | none =>
        rw [ht] at h
        exact Except.noConfusion h
      | some t =>
        rw [ht] at h
        cases hnd : c.heap.lookup t with
        | none =>
          simp only [readNode, hnd, deref, ok_bind, error_bind] at h
          exact Except.noConfusion h
        | some nd =>
          simp only [readNode, hnd, deref, ok_bind] at h
          have hsz : heapNonneg c.heap → 0 ≤ nd.cacheItem.sz := fun hnn => hnn t nd hnd
          cases hp : nd.prev with
          | some p =>
            simp only [hp] at h
            obtain ⟨hmax, hnid, hci, hmono⟩ := ih vsz _ c' h
            refine ⟨hmax, hnid, eqCI_trans hci (eqCI_hsetNext (eqCI_refl _)), ?_⟩
            intro hnn
            have hnn2 : heapNonneg (hsetNext c.heap p none) :=
              heapNonneg_of_eqCI (eqCI_hsetNext (eqCI_refl _)) hnn
            refine le_trans (hmono hnn2) ?_
            show c.curSize - nd.cacheItem.sz ≤ c.curSize
            have := hsz hnn
            omega
          | none =>
            simp only [hp] at h
            obtain ⟨hmax, hnid, hci, hmono⟩ := ih vsz _ c' h
            refine ⟨hmax, hnid, hci, ?_⟩
            intro hnn
            refine le_trans (hmono hnn) ?_
            show c.curSize - nd.cacheItem.sz ≤ c.curSize
            have := hsz hnn
            omega
    · rw [if_neg hc] at h
      obtain rfl : c = c' := by injection h
      exact ⟨rfl, rfl, eqCI_refl _, fun _ => le_refl _⟩

theorem addV1_ok {fuel : Nat} {c c' : LruCache} {k : String} {v : CacheItem} {b : Bool}
    (h : V1.add fuel c k v = .ok (b, c')) :
    (b = false ↔ v.sz > c.maxSize) ∧ c'.maxSize = c.maxSize ∧
    (heapNonneg c.heap → 0 ≤ v.sz → (heapNonneg c'.heap ∧ c'.curSize ≤ c.curSize)) := by
  unfold V1.add at h
  simp only [bind_ok_iff] at h
  obtain ⟨c1, hrem, h⟩ := h
  obtain ⟨hmax1, hnid1, hci1, hmono1⟩ := removeV1_ok hrem
  by_cases hv : v.sz > c1.maxSize
  · rw [if_pos hv] at h
    simp only [Except.ok.injEq, Prod.mk.injEq] at h
    obtain ⟨hb, hc⟩ := h
    subst hb
    subst hc
    refine ⟨by simp [hmax1 ▸ hv], hmax1, ?_⟩
    intro hnn hvz
    constructor
    · show heapNonneg ((c1.nextId, ⟨v, k, none, none⟩) :: c1.heap)
      exact heapNonneg_cons hvz (heapNonneg_of_eqCI hci1 hnn)
    · show c1.curSize ≤ c.curSize
      exact hmono1 hnn
  · rw [if_neg hv] at h
    simp only [bind_ok_iff] at h
    obtain ⟨c3, hev, h⟩ := h
    obtain ⟨hmax3, hnid3, hci3, hmono3⟩ := evictLoopV1_ok fuel v.sz _ c3 hev
    have hnnAlloc : heapNonneg c.heap → 0 ≤ v.sz →
        heapNonneg ((c1.nextId, (⟨v, k, none, none⟩ : LruNode)) :: c1.heap) :=
      fun hnn hvz => heapNonneg_cons hvz (heapNonneg_of_eqCI hci1 hnn)
    have hmaxAlloc : c3.maxSize = c1.maxSize := hmax3
    cases hh : c3.head with
    | none =>
      simp only [hh] at h
      simp only [Except.ok.injEq, Prod.mk.injEq] at h
      obtain ⟨hb, hc⟩ := h
      subst hb
      subst hc
      refine ⟨by simp [hmax1 ▸ hv], hmaxAlloc.trans hmax1, ?_⟩
      intro hnn hvz
      refine ⟨heapNonneg_of_eqCI hci3 (hnnAlloc hnn hvz), ?_⟩
      show c3.curSize ≤ c.curSize
      refine le_trans (hmono3 (hnnAlloc hnn hvz)) ?_
      show c1.curSize ≤ c.curSize
      exact hmono1 hnn
    | some hd =>
      simp only [hh] at h
      simp only [Except.ok.injEq, Prod.mk.injEq] at h
      obtain ⟨hb, hc⟩ := h
      subst hb
      subst hc
      refine ⟨by simp [hmax1 ▸ hv], hmaxAlloc.trans hmax1, ?_⟩
      intro hnn hvz
      constructor
      · exact heapNonneg_of_eqCI
          (eqCI_hsetPrev (eqCI_hsetNext (eqCI_refl _)))
          (heapNonneg_of_eqCI hci3 (hnnAlloc hnn hvz))
      · show c3.curSize ≤ c.curSize
        refine le_trans (hmono3 (hnnAlloc hnn hvz)) ?_
        show c1.curSize ≤ c.curSize
        exact hmono1 hnn

theorem getV1_ok {c c' : LruCache} {k : String} {o : Option CacheItem}
    (h : V1.get c k = .ok (o, c')) :
    c'.maxSize = c.maxSize ∧ c'.nextId = c.nextId ∧ c'.curSize = c.curSize ∧
    eqCI c'.heap c.heap := by
  unfold V1.get at h
  cases hmk : c.keyValMap.lookup k with
  | none =>
    rw [hmk] at h
    simp only [Except.ok.injEq, Prod.mk.injEq] at h
    obtain ⟨_, hc⟩ := h
    subst hc
    exact ⟨rfl, rfl, rfl, eqCI_refl _⟩
  | some i =>
    rw [hmk] at h
    cases hnd : c.heap.lookup i with
    | none =>
      simp only [readNode, hnd, deref, error_bind] at h
      exact Except.noConfusion h
    | some nd =>
      obtain ⟨ci, ky, pv, nx⟩ := nd
      cases hhd : c.head <;> cases pv <;> cases nx <;>
        simp only [readNode, hnd, deref, ok_bind, error_bind, hhd] at h <;>
        split_ifs at h <;>
        first
        | exact Except.noConfusion h
        | · simp only [Except.ok.injEq, Prod.mk.injEq] at h
            obtain ⟨_, hc⟩ := h
            subst hc
            refine ⟨rfl, rfl, rfl, ?_⟩
            repeat
              first
              | exact eqCI_refl _
              | apply eqCI_hsetPrev
              | apply eqCI_hsetNext

theorem stepV1_ok {c c2 : LruCache} {op : Op} {r : Res} (h : stepV1 c op = .ok (r, c2)) :
    c2.maxSize = c.maxSize ∧
    (∀ k v, op = Op.add k v → r = (if c.maxSize < v.sz then Res.addErr else Res.addOk)) ∧
    (∀ k, op = Op.get k → ∃ o, r = Res.got o) ∧
    (∀ k, op = Op.rem k → r = Res.removed) ∧
    (heapNonneg c.heap → opSizeNonneg op = true →
      (heapNonneg c2.heap ∧ c2.curSize ≤ c.curSize)) := by
  cases op with
  | add k v =>
    unfold stepV1 at h
    simp only [bind_ok_iff] at h
    obtain ⟨⟨b, c1⟩, hadd, heq⟩ := h
    simp only [Except.ok.injEq, Prod.mk.injEq] at heq
    obtain ⟨hr, hc⟩ := heq
    subst hc
    obtain ⟨hiff, hmax, hnn⟩ := addV1_ok hadd
    refine ⟨hmax, ?_, by simp, by simp, ?_⟩
    · intro k2 v2 hop
      obtain ⟨rfl, rfl⟩ : k2 = k ∧ v2 = v := by
        cases hop
        exact ⟨rfl, rfl⟩
      cases b with
      | false =>
        have hgt : v2.sz > c.maxSize := hiff.mp rfl
        rw [← hr]
        show Res.addErr = if c.maxSize < v2.sz then Res.addErr else Res.addOk
        rw [if_pos hgt]
      | true =>
        have hnot : ¬(v2.sz > c.maxSize) := fun hgt => absurd (hiff.mpr hgt) (by simp)
        rw [← hr]
        show Res.addOk = if c.maxSize < v2.sz then Res.addErr else Res.addOk
        rw [if_neg hnot]
    · intro hnnc hop
      exact hnn hnnc (by simpa [opSizeNonneg] using hop)
  | get k =>
    unfold stepV1 at h
    simp only [bind_ok_iff] at h
    obtain ⟨⟨o, c1⟩, hget, heq⟩ := h
    simp only [Except.ok.injEq, Prod.mk.injEq] at heq
    obtain ⟨hr, hc⟩ := heq
    subst hc
    obtain ⟨hmax, hnid, hcur, hci⟩ := getV1_ok hget
    refine ⟨hmax, by simp, ?_, by simp, ?_⟩
    · intro k2 _
      exact ⟨o, hr.symm⟩
    · intro hnnc _
      exact ⟨heapNonneg_of_eqCI hci hnnc, le_of_eq hcur⟩
  | rem k =>
    unfold stepV1 at h
    simp only [bind_ok_iff] at h
    obtain ⟨c1, hrem, heq⟩ := h
    simp only [Except.ok.injEq, Prod.mk.injEq] at heq
    obtain ⟨hr, hc⟩ := heq
    subst hc
    obtain ⟨hmax, hnid, hci, hmono⟩ := removeV1_ok hrem
    refine ⟨hmax, by simp, by simp, ?_, ?_⟩
    · intro k2 _
      exact hr.symm
    · intro hnnc _
      exact ⟨heapNonneg_of_eqCI hci hnnc, hmono hnnc⟩

theorem stepV2_ok {cap : Int} {c c2 : LruCache} {op : Op} {r : Res}
    (hI : Inv2 cap c) (h : stepV2 c op = .ok (r, c2)) :
    Inv2 cap c2 ∧
    (∀ k v, op = Op.add k v → r = (if cap < v.sz then Res.addErr else Res.addOk)) ∧
    (∀ k, op = Op.get k → ∃ o, r = Res.got o) ∧
    (∀ k, op = Op.rem k → r = Res.removed) := by
  cases op with
  | add k v =>
    unfold stepV2 at h
    simp only [bind_ok_iff] at h
    obtain ⟨⟨b, c1⟩, hadd, heq⟩ := h
    simp only [Except.ok.injEq, Prod.mk.injEq] at heq
    obtain ⟨hr, hc⟩ := heq
    subst hc
    obtain ⟨hiff, hI2⟩ := addV2_ok hI hadd
    refine ⟨hI2, ?_, by simp, by simp⟩
    intro k2 v2 hop
    obtain ⟨rfl, rfl⟩ : k2 = k ∧ v2 = v := by
      cases hop
      exact ⟨rfl, rfl⟩
    cases b with
    | false =>
      have hgt : cap < v2.sz := hiff.mp rfl
      rw [← hr]
      show Res.addErr = if cap < v2.sz then Res.addErr else Res.addOk
      rw [if_pos hgt]
    | true =>
      have hnot : ¬(cap < v2.sz) := fun hgt => absurd (hiff.mpr hgt) (by simp)
      rw [← hr]
      show Res.addOk = if cap < v2.sz then Res.addErr else Res.addOk
      rw [if_neg hnot]
  | get k =>
    unfold stepV2 at h
    simp only [bind_ok_iff] at h
    obtain ⟨⟨o, c1⟩, hget, heq⟩ := h
    simp only [Except.ok.injEq, Prod.mk.injEq] at heq
    obtain ⟨hr, hc⟩ := heq
    subst hc
    obtain ⟨_, _, _, _, hInv⟩ := getV2_ok hget
    exact ⟨hInv cap hI, by simp, fun k2 _ => ⟨o, hr.symm⟩, by simp⟩
  | rem k =>
    unfold stepV2 at h
    simp only [bind_ok_iff] at h
    obtain ⟨c1, hrem, heq⟩ := h
    simp only [Except.ok.injEq, Prod.mk.injEq] at heq
    obtain ⟨hr, hc⟩ := heq
    subst hc
    obtain ⟨_, _, _, _, hInv⟩ := removeV2_ok hrem
    exact ⟨hInv cap hI, by simp, by simp, fun k2 _ => hr.symm⟩

theorem addRest_nonneg {fuel : Nat} {c c' : LruCache} {k : String} {v : CacheItem} {b : Bool}
    (h : V2.addRest fuel c k v = .ok (b, c')) (hnn : heapNonneg c.heap) (hvz : 0 ≤ v.sz) :
    heapNonneg c'.heap ∧ c'.maxSize = c.maxSize ∧ c'.curSize ≤ c'.maxSize ∨
    (b = false ∧ c' = c) := by
  obtain ⟨hiff, herr, hsucc⟩ := addRestV2_ok h
  cases b with
  | false => exact Or.inr ⟨rfl, herr rfl⟩
  | true =>
    obtain ⟨c1, hcond, hmax1, _, hci1, _, _, hcur, _, hmax, _, _, hci⟩ := hsucc rfl
    refine Or.inl ⟨?_, hmax.trans hmax1, ?_⟩
    · refine heapNonneg_of_eqCI hci ?_
      exact heapNonneg_cons hvz (heapNonneg_of_eqCI hci1 hnn)
    · rw [hcur, hmax]
      omega

theorem addV2_nonneg {fuel : Nat} {c c' : LruCache} {k : String} {v : CacheItem} {b : Bool}
    (h : V2.add fuel c k v = .ok (b, c')) (hnn : heapNonneg c.heap) (hvz : 0 ≤ v.sz)
    (hcur : c.curSize ≤ c.maxSize) :
    heapNonneg c'.heap ∧ c'.curSize ≤ c'.maxSize ∧ c'.maxSize = c.maxSize := by
  unfold V2.add at h
  cases hmk : c.keyValMap.lookup k with
  | none =>
    rw [hmk] at h
    rcases addRest_nonneg h hnn hvz with ⟨h1, h2, h3⟩ | ⟨_, rfl⟩
    · exact ⟨h1, h3, h2⟩
    · exact ⟨hnn, hcur, rfl⟩
  | some i =>
    rw [hmk] at h
    cases hnd : c.heap.lookup i with
    | none =>
      simp only [readNode, hnd, deref, error_bind] at h
      exact Except.noConfusion h
    | some nd =>
      simp only [readNode, hnd, deref, ok_bind, bind_ok_iff] at h
      obtain ⟨c1, hir, h⟩ := h
      obtain ⟨nd2, hnd2, hcur1, hmap1, hmax1, hnid1, hci1⟩ := itemRemove_ok hir
      rw [hnd] at hnd2
      obtain rfl : nd = nd2 := by injection hnd2
      have hnn1 : heapNonneg c1.heap := heapNonneg_of_eqCI hci1 hnn
      have hsz : 0 ≤ nd.cacheItem.sz := hnn i nd hnd
      have hcur1le : c1.curSize ≤ c1.maxSize := by
        rw [hcur1, hmax1]
        omega
      by_cases hvv : v = nd.cacheItem
      · rw [if_pos hvv] at h
        simp only [bind_ok_iff] at h
        obtain ⟨cβ, hia, heq⟩ := h
        simp only [Except.ok.injEq, Prod.mk.injEq] at heq
        obtain ⟨hb, hc⟩ := heq
        subst hb
        subst hc
        obtain ⟨nd4, hnd4, hcur2, hmap2, hmax2, hnid2, hhead2, hciA⟩ := itemAdd_ok hia
        obtain ⟨nd3, hnd3, hci3, hkey3⟩ := eqCI_lookup_rev hci1 hnd
        rw [hnd3] at hnd4
        obtain rfl : nd3 = nd4 := by injection hnd4
        refine ⟨heapNonneg_of_eqCI hciA hnn1, ?_, hmax2.trans hmax1⟩
        rw [hcur2, hcur1, hci3, hmax2, hmax1]
        omega
      · rw [if_neg hvv] at h
        rcases addRest_nonneg h hnn1 hvz with ⟨h1, h2, h3⟩ | ⟨_, rfl⟩
        · exact ⟨h1, h3, h2.trans hmax1⟩
        · exact ⟨hnn1, hcur1le, hmax1⟩

theorem stepV2_nonneg {c c2 : LruCache} {op : Op} {r : Res}
    (h : stepV2 c op = .ok (r, c2)) (hnn : heapNonneg c.heap)
    (hop : opSizeNonneg op = true) (hcur : c.curSize ≤ c.maxSize) :
    heapNonneg c2.heap ∧ c2.curSize ≤ c2.maxSize ∧ c2.maxSize = c.maxSize := by
  cases op with
  | add k v =>
    unfold stepV2 at h
    simp only [bind_ok_iff] at h
    obtain ⟨⟨b, c1⟩, hadd, heq⟩ := h
    simp only [Except.ok.injEq, Prod.mk.injEq] at heq
    obtain ⟨_, hc⟩ := heq
    subst hc
    exact addV2_nonneg hadd hnn (by simpa [opSizeNonneg] using hop) hcur
  | get k =>
    unfold stepV2 at h
    simp only [bind_ok_iff] at h
    obtain ⟨⟨o, c1⟩, hget, heq⟩ := h
    simp only [Except.ok.injEq, Prod.mk.injEq] at heq
    obtain ⟨_, hc⟩ := heq
    subst hc
    obtain ⟨hcureq, hmax, _, hci, _⟩ := getV2_ok hget
    exact ⟨heapNonneg_of_eqCI hci hnn, by rw [hcureq, hmax]; exact hcur, hmax⟩
  | rem k =>
    unfold stepV2 at h
    simp only [bind_ok_iff] at h
    obtain ⟨c1, hrem, heq⟩ := h
    simp only [Except.ok.injEq, Prod.mk.injEq] at heq
    obtain ⟨_, hc⟩ := heq
    subst hc
    obtain ⟨hmax, _, hci, hmono, _⟩ := removeV2_ok hrem
    exact ⟨heapNonneg_of_eqCI hci hnn, by rw [hmax]; exact le_trans (hmono hnn) hcur, hmax⟩

theorem inv2_create (cap : Int) : Inv2 cap (createLRUCache cap) := by
  constructor
  · rfl
  · intro k i hk
    exact Option.noConfusion hk
  · intro k i nd hk
    exact fun _ => absurd hk (by simp [createLRUCache])
  · intro i nd hnd
    exact Option.noConfusion hnd

theorem runWith_ok_cons {step : LruCache → Op → Except Crash (Res × LruCache)}
    {c c2 : LruCache} {op : Op} {ops : List Op} {rs : List Res}
    (h : runWith step c (op :: ops) = .ok (rs, c2)) :
    ∃ r c1 rs1, step c op = .ok (r, c1) ∧ runWith step c1 ops = .ok (rs1, c2) ∧
      rs = r :: rs1 := by
  unfold runWith at h
  simp only [bind_ok_iff] at h
  obtain ⟨⟨r, c1⟩, hstep, h⟩ := h
  obtain ⟨⟨rs1, c3⟩, hrun, heq⟩ := h
  simp only [Except.ok.injEq, Prod.mk.injEq] at heq
  obtain ⟨hrs, hc⟩ := heq
  subst hc
  exact ⟨r, c1, rs1, hstep, hrun, hrs.symm⟩

theorem runWithV2_inv2 : ∀ (ops : List Op) {cap : Int} {c c2 : LruCache} {rs : List Res},
    Inv2 cap c → runWith stepV2 c ops = .ok (rs, c2) → Inv2 cap c2 := by
  intro ops
  induction ops with
  | nil =>
    intro cap c c2 rs hI h
    unfold runWith at h
    simp only [Except.ok.injEq, Prod.mk.injEq] at h
    obtain ⟨_, hc⟩ := h
    subst hc
    exact hI
  | cons op ops ih =>
    intro cap c c2 rs hI h
    obtain ⟨r, c1, rs1, hstep, hrun, _⟩ := runWith_ok_cons h
    exact ih (stepV2_ok hI hstep).1 hrun

theorem runWithV1_nonneg : ∀ (ops : List Op) {c c2 : LruCache} {rs : List Res},
    ops.all opSizeNonneg = true → heapNonneg c.heap →
    runWith stepV1 c ops = .ok (rs, c2) →
    heapNonneg c2.heap ∧ c2.curSize ≤ c.curSize ∧ c2.maxSize = c.maxSize := by
  intro ops
  induction ops with
  | nil =>
    intro c c2 rs _ hnn h
    unfold runWith at h
    simp only [Except.ok.injEq, Prod.mk.injEq] at h
    obtain ⟨_, hc⟩ := h
    subst hc
    exact ⟨hnn, le_refl _, rfl⟩
  | cons op ops ih =>
    intro c c2 rs hall hnn h
    rw [List.all_cons, Bool.and_eq_true] at hall
    obtain ⟨r, c1, rs1, hstep, hrun, _⟩ := runWith_ok_cons h
    obtain ⟨hmax1, _, _, _, hpres⟩ := stepV1_ok hstep
    obtain ⟨hnn1, hmono1⟩ := hpres hnn hall.1
    obtain ⟨hnn2, hmono2, hmax2⟩ := ih hall.2 hnn1 hrun
    exact ⟨hnn2, le_trans hmono2 hmono1, hmax2.trans hmax1⟩

theorem runWithV2_nonneg : ∀ (ops : List Op) {c c2 : LruCache} {rs : List Res},
    ops.all opSizeNonneg = true → heapNonneg c.heap → c.curSize ≤ c.maxSize →
    runWith stepV2 c ops = .ok (rs, c2) →
    heapNonneg c2.heap ∧ c2.curSize ≤ c2.maxSize ∧ c2.maxSize = c.maxSize := by
  intro ops
  induction ops with
  | nil =>
    intro c c2 rs _ hnn hcur h
    unfold runWith at h
    simp only [Except.ok.injEq, Prod.mk.injEq] at h
    obtain ⟨_, hc⟩ := h
    subst hc
    exact ⟨hnn, hcur, rfl⟩
  | cons op ops ih =>
    intro c c2 rs hall hnn hcur h
    rw [List.all_cons, Bool.and_eq_true] at hall
    obtain ⟨r, c1, rs1, hstep, hrun, _⟩ := runWith_ok_cons h
    obtain ⟨hnn1, hcur1, hmax1⟩ := stepV2_nonneg hstep hnn hall.1 hcur
    obtain ⟨hnn2, hcur2, hmax2⟩ := ih hall.2 hnn1 hcur1 hrun
    exact ⟨hnn2, hcur2, hmax2.trans hmax1⟩

theorem addResults_cons_addOk (rs : List Res) :
    addResults (Res.addOk :: rs) = true :: addResults rs :=
  rfl

theorem addResults_cons_addErr (rs : List Res) :
    addResults (Res.addErr :: rs) = false :: addResults rs :=
  rfl

theorem addResults_cons_got (o : Option CacheItem) (rs : List Res) :
    addResults (Res.got o :: rs) = addResults rs :=
  rfl

theorem addResults_cons_removed (rs : List Res) :
    addResults (Res.removed :: rs) = addResults rs :=
  rfl

theorem runBoth_addResults : ∀ (ops : List Op) {cap : Int} {s1 s2 f1 f2 : LruCache}
    {rs1 rs2 : List Res},
    s1.maxSize = cap → Inv2 cap s2 →
    runWith stepV1 s1 ops = .ok (rs1, f1) →
    runWith stepV2 s2 ops = .ok (rs2, f2) →
    addResults rs1 = addResults rs2 := by
  intro ops
  induction ops with
  | nil =>
    intro cap s1 s2 f1 f2 rs1 rs2 _ _ h1 h2
    unfold runWith at h1 h2
    simp only [Except.ok.injEq, Prod.mk.injEq] at h1 h2
    rw [← h1.1, ← h2.1]
  | cons op ops ih =>
    intro cap s1 s2 f1 f2 rs1 rs2 hmax hI h1 h2
    obtain ⟨r1, c1, rsa, hstep1, hrun1, hrs1⟩ := runWith_ok_cons h1
    obtain ⟨r2, c2, rsb, hstep2, hrun2, hrs2⟩ := runWith_ok_cons h2
    subst hrs1
    subst hrs2
    obtain ⟨hmax1, hadd1, hget1, hrem1, _⟩ := stepV1_ok hstep1
    obtain ⟨hI2, hadd2, hget2, hrem2⟩ := stepV2_ok hI hstep2
    have htail := ih (hmax1.trans hmax) hI2 hrun1 hrun2
    cases op with
    | add k v =>
      rw [hadd1 k v rfl, hadd2 k v rfl, hmax]
      by_cases hlt : cap < v.sz
      · rw [if_pos hlt, addResults_cons_addErr, addResults_cons_addErr, htail]
      · rw [if_neg hlt, addResults_cons_addOk, addResults_cons_addOk, htail]
    | get k =>
      obtain ⟨o1, ho1⟩ := hget1 k rfl
      obtain ⟨o2, ho2⟩ := hget2 k rfl
      subst ho1
      subst ho2
      rw [addResults_cons_got, addResults_cons_got]
      exact htail
    | rem k =>
      rw [hrem1 k rfl, hrem2 k rfl, addResults_cons_removed, addResults_cons_removed]
      exact htail

theorem stepV1_dead {c : LruCache} {op : Op} (hmap : c.keyValMap = [])
    (hcap : c.maxSize ≤ 0) (hop : opSizePos op = true) :
    ∃ c2, stepV1 c op = .ok (deadRes op, c2) ∧ c2.keyValMap = [] ∧ c2.maxSize = c.maxSize := by
  cases op with
  | add k v =>
    have hvz : 0 < v.sz := by simpa [opSizePos] using hop
    have hgt : v.sz > c.maxSize := by omega
    refine ⟨{ c with heap := (c.nextId, (⟨v, k, none, none⟩ : LruNode)) :: c.heap, nextId := c.nextId + 1 }, ?_, by simpa using hmap, rfl⟩
    unfold stepV1 V1.add V1.remove
    rw [hmap]
    simp only [List.lookup, ok_bind, hgt, if_true, deadRes, hmap, Bool.false_eq_true, if_false]
  | get k =>
    refine ⟨c, ?_, hmap, rfl⟩
    unfold stepV1 V1.get
    rw [hmap]
    simp only [List.lookup, ok_bind, deadRes]
  | rem k =>
    refine ⟨c, ?_, hmap, rfl⟩
    unfold stepV1 V1.remove
    rw [hmap]
    simp only [List.lookup, ok_bind, deadRes]

theorem stepV2_dead {c : LruCache} {op : Op} (hmap : c.keyValMap = [])
    (hcap : c.maxSize ≤ 0) (hop : opSizePos op = true) :
    ∃ c2, stepV2 c op = .ok (deadRes op, c2) ∧ c2.keyValMap = [] ∧ c2.maxSize = c.maxSize := by
  cases op with
  | add k v =>
    have hvz : 0 < v.sz := by simpa [opSizePos] using hop
    have hgt : v.sz > c.maxSize := by omega
    refine ⟨c, ?_, hmap, rfl⟩
    unfold stepV2 V2.add V2.addRest
    rw [hmap]
    simp only [List.lookup, ok_bind, hgt, if_true, deadRes, hmap, Bool.false_eq_true, if_false]
  | get k =>
    refine ⟨c, ?_, hmap, rfl⟩
    unfold stepV2 V2.get
    rw [hmap]
    simp only [List.lookup, ok_bind, deadRes]
  | rem k =>
    refine ⟨c, ?_, hmap, rfl⟩
    unfold stepV2 V2.remove
    rw [hmap]
    simp only [List.lookup, ok_bind, deadRes]

theorem runV1_dead : ∀ (ops : List Op) {c : LruCache}, c.keyValMap = [] → c.maxSize ≤ 0 →
    ops.all opSizePos = true →
    ∃ c2, runWith stepV1 c ops = .ok (ops.map deadRes, c2) ∧ c2.keyValMap = [] := by
  intro ops
  induction ops with
  | nil =>
    intro c hmap hcap _
    exact ⟨c, rfl, hmap⟩
  | cons op ops ih =>
    intro c hmap hcap hall
    rw [List.all_cons, Bool.and_eq_true] at hall
    obtain ⟨c1, hstep, hm1, hmax1⟩ := stepV1_dead hmap hcap hall.1
    obtain ⟨c2, hrun, hm2⟩ := ih hm1 (hmax1 ▸ hcap) hall.2
    refine ⟨c2, ?_, hm2⟩
    unfold runWith
    simp only [hstep, ok_bind, hrun, List.map_cons]

theorem runV2_dead : ∀ (ops : List Op) {c : LruCache}, c.keyValMap = [] → c.maxSize ≤ 0 →
    ops.all opSizePos = true →
    ∃ c2, runWith stepV2 c ops = .ok (ops.map deadRes, c2) ∧ c2.keyValMap = [] := by
  intro ops
  induction ops with
  | nil =>
    intro c hmap hcap _
    exact ⟨c, rfl, hmap⟩
  | cons op ops ih =>
    intro c hmap hcap hall
    rw [List.all_cons, Bool.and_eq_true] at hall
    obtain ⟨c1, hstep, hm1, hmax1⟩ := stepV2_dead hmap hcap hall.1
    obtain ⟨c2, hrun, hm2⟩ := ih hm1 (hmax1 ▸ hcap) hall.2
    refine ⟨c2, ?_, hm2⟩
    unfold runWith
    simp only [hstep, ok_bind, hrun, List.map_cons]

theorem eqCI_cacheItem {h1 h2 : Heap} (he : eqCI h1 h2) (j : Nat) :
    (List.lookup j h1).map LruNode.cacheItem = (List.lookup j h2).map LruNode.cacheItem := by
  have hj := he j
  cases ha : List.lookup j h1 <;> cases hb : List.lookup j h2 <;> rw [ha, hb] at hj <;>
    simp_all

/-- C1: the claim says a failed oversized `Add` under an existing key leaves the
prior entry retrievable.  Both variants remove the prior entry before the size
check: with capacity 50, after `Add "k"` (size 10) succeeds, `Add "k"` (size 60)
fails with the error — and `Get "k"` then reports the key absent, so the prior
entry was destroyed by the failed call. -/
theorem c1_code_bug :
    resultsOf (runV1 (createLRUCache 50)
      [Op.add "k" ⟨0, 10⟩, Op.add "k" ⟨1, 60⟩, Op.get "k"]) =
      some [Res.addOk, Res.addErr, Res.got none] ∧
    resultsOf (runV2 (createLRUCache 50)
      [Op.add "k" ⟨0, 10⟩, Op.add "k" ⟨1, 60⟩, Op.get "k"]) =
      some [Res.addOk, Res.addErr, Res.got none] := by
  constructor <;> rfl

/-- C2: the spec scenario (the repository's own test).  The `part_000` variant
satisfies it: after adding `"0"`..`"9"` (size 10 each, capacity 100) and then
`"10"`, key `"0"` is gone and `"1"`..`"10"` remain; after `Get "1"` and
`Add "11"`, key `"2"` is gone and `"1"` remains.  The `lrucache.go` variant
contradicts it (and its own test): its `Add` never increments `curSize`, so
nothing is ever evicted and `"0"` is still present. -/
theorem c2_code_bug :
    onFinal (runV2 (createLRUCache 100)
      [Op.add "0" ⟨0, 10⟩, Op.add "1" ⟨1, 10⟩, Op.add "2" ⟨2, 10⟩, Op.add "3" ⟨3, 10⟩,
       Op.add "4" ⟨4, 10⟩, Op.add "5" ⟨5, 10⟩, Op.add "6" ⟨6, 10⟩, Op.add "7" ⟨7, 10⟩,
       Op.add "8" ⟨8, 10⟩, Op.add "9" ⟨9, 10⟩, Op.add "10" ⟨10, 10⟩])
      (fun c => (c.keyValMap.lookup "0").isNone &&
        ((c.keyValMap.lookup "1").isSome && (c.keyValMap.lookup "2").isSome &&
         (c.keyValMap.lookup "3").isSome && (c.keyValMap.lookup "4").isSome &&
         (c.keyValMap.lookup "5").isSome && (c.keyValMap.lookup "6").isSome &&
         (c.keyValMap.lookup "7").isSome && (c.keyValMap.lookup "8").isSome &&
         (c.keyValMap.lookup "9").isSome && (c.keyValMap.lookup "10").isSome)) = true ∧
    onFinal (runV2 (createLRUCache 100)
      [Op.add "0" ⟨0, 10⟩, Op.add "1" ⟨1, 10⟩, Op.add "2" ⟨2, 10⟩, Op.add "3" ⟨3, 10⟩,
       Op.add "4" ⟨4, 10⟩, Op.add "5" ⟨5, 10⟩, Op.add "6" ⟨6, 10⟩, Op.add "7" ⟨7, 10⟩,
       Op.add "8" ⟨8, 10⟩, Op.add "9" ⟨9, 10⟩, Op.add "10" ⟨10, 10⟩, Op.get "1",
       Op.add "11" ⟨11, 10⟩])
      (fun c => (c.keyValMap.lookup "2").isNone && (c.keyValMap.lookup "1").isSome) = true ∧
    onFinal (runV1 (createLRUCache 100)
      [Op.add "0" ⟨0, 10⟩, Op.add "1" ⟨1, 10⟩, Op.add "2" ⟨2, 10⟩, Op.add "3" ⟨3, 10⟩,
       Op.add "4" ⟨4, 10⟩, Op.add "5" ⟨5, 10⟩, Op.add "6" ⟨6, 10⟩, Op.add "7" ⟨7, 10⟩,
       Op.add "8" ⟨8, 10⟩, Op.add "9" ⟨9, 10⟩, Op.add "10" ⟨10, 10⟩])
      (fun c => (c.keyValMap.lookup "0").isSome) = true := by
  refine ⟨?_, ?_, ?_⟩ <;> rfl

/-- C3: the claim says `currentSize` always equals the sum of stored sizes.
In `lrucache.go` a single successful `Add` of size 10 leaves `curSize = 0`
(`Add` never increments it) while the index holds 10.  In `part_000` the trace
below drives the list into a corrupt shape whose eviction decrements `curSize`
for a node that is no longer in the index, ending with `curSize = 2` while the
index holds sizes summing to 4. -/
theorem c3_code_bug :
    onFinal (runV1 (createLRUCache 100) [Op.add "a" ⟨0, 10⟩])
      (fun c => decide (c.curSize = 0) && decide (mapSizeSum c = 10)) = true ∧
    onFinal (runV2 (createLRUCache 3)
      [Op.add "b" ⟨1, 1⟩, Op.add "c" ⟨2, 2⟩, Op.get "b", Op.add "b" ⟨2, 2⟩,
       Op.add "c" ⟨2, 2⟩])
      (fun c => decide (c.curSize = 2) && decide (mapSizeSum c = 4)) = true := by
  constructor <;> rfl

/-- C4: the claim says the recency list stays structurally consistent after
every call.  In `lrucache.go`, `Get` of the tail moves it to the head but never
updates `tail`: afterwards `tail` is the head node and the tail node's `next`
is non-nil.  In `part_000`, re-adding a node never clears its stale `prev`
pointer: after `Get` of a middle node the head node's `prev` is non-nil. -/
theorem c4_code_bug :
    onFinal (runV1 (createLRUCache 100)
      [Op.add "a" ⟨0, 10⟩, Op.add "b" ⟨1, 10⟩, Op.get "a"])
      (fun c => decide (c.tail = some 0) && decide (c.head = some 0) &&
        decide ((c.heap.lookup 0).map LruNode.next = some (some 1))) = true ∧
    onFinal (runV2 (createLRUCache 100)
      [Op.add "a" ⟨0, 1⟩, Op.add "b" ⟨1, 1⟩, Op.add "c" ⟨2, 1⟩, Op.get "b"])
      (fun c => decide (c.head = some 1) &&
        decide ((c.heap.lookup 1).map LruNode.prev = some (some 2))) = true := by
  constructor <;> rfl

/-- C5 counterexample: with capacity 0, `Add` of a size-0 item succeeds in both
variants (`0 > 0` is false) and the item is retrievable — so it is not true
that every Add on a capacity-`≤ 0` cache fails for every non-negative size. -/
theorem c5_counterexample :
    resultsOf (runV1 (createLRUCache 0) [Op.add "a" ⟨0, 0⟩, Op.get "a"]) =
      some [Res.addOk, Res.got (some ⟨0, 0⟩)] ∧
    resultsOf (runV2 (createLRUCache 0) [Op.add "a" ⟨0, 0⟩, Op.get "a"]) =
      some [Res.addOk, Res.got (some ⟨0, 0⟩)] := by
  constructor <;> rfl

/-- C5 amended: for every cache constructed with capacity `≤ 0` and every call
sequence whose added values all have strictly positive `Size()`, every `Add`
fails with the error, every `Get` misses, and the index stays empty — no item
is ever stored.  (Size-0 items are the sole exception, per the
counterexample.)  Holds for both variants. -/
theorem c5_amended (cap : Int) (ops : List Op) (hcap : cap ≤ 0)
    (hpos : ops.all opSizePos = true) :
    (∃ c2, runV1 (createLRUCache cap) ops = .ok (ops.map deadRes, c2) ∧
      c2.keyValMap = []) ∧
    (∃ c2, runV2 (createLRUCache cap) ops = .ok (ops.map deadRes, c2) ∧
      c2.keyValMap = []) :=
  ⟨runV1_dead ops rfl hcap hpos, runV2_dead ops rfl hcap hpos⟩

/-- C5 witness: the amended theorem applied at capacity 0 to a single size-1
add. -/
theorem c5_witness :
    (∃ c2, runV1 (createLRUCache 0) [Op.add "a" ⟨0, 1⟩] =
      .ok ([Op.add "a" ⟨0, 1⟩].map deadRes, c2) ∧ c2.keyValMap = []) ∧
    (∃ c2, runV2 (createLRUCache 0) [Op.add "a" ⟨0, 1⟩] =
      .ok ([Op.add "a" ⟨0, 1⟩].map deadRes, c2) ∧ c2.keyValMap = []) :=
  c5_amended 0 [Op.add "a" ⟨0, 1⟩] (by decide) (by decide)

/-- C6: the claim says that whenever the eviction loop's condition
`curSize + incomingSize > capacity` holds, `tail` is non-nil, so evicting never
touches a missing tail.  In `part_000` the trace below reaches a state (shown
by the first conjunct) where `curSize + 1 > capacity` and `tail` is nil while a
size-1 value passes the capacity check — and the subsequent `Add` of that value
dereferences the nil tail: the run panics. -/
theorem c6_code_bug :
    onFinal (runV2 (createLRUCache 3)
      [Op.add "b" ⟨0, 1⟩, Op.add "c" ⟨1, 1⟩, Op.get "b", Op.add "b" ⟨2, 2⟩,
       Op.add "c" ⟨3, 3⟩])
      (fun c => c.tail.isNone && decide (c.maxSize < c.curSize + 1) &&
        decide ((1 : Int) ≤ c.maxSize)) = true ∧
    runV2 (createLRUCache 3)
      [Op.add "b" ⟨0, 1⟩, Op.add "c" ⟨1, 1⟩, Op.get "b", Op.add "b" ⟨2, 2⟩,
       Op.add "c" ⟨3, 3⟩, Op.add "b" ⟨5, 1⟩] = .error .panicked := by
  constructor <;> rfl

/-- C7 counterexample: the claim is stated for every constructed cache, but for
a cache constructed with negative capacity the empty state already violates it:
after a completed `Get` on a fresh capacity-(-1) cache, `curSize = 0 > -1`. -/
theorem c7_counterexample :
    onFinal (runV1 (createLRUCache (-1)) [Op.get "x"])
      (fun c => decide (c.maxSize < c.curSize)) = true ∧
    onFinal (runV2 (createLRUCache (-1)) [Op.get "x"])
      (fun c => decide (c.maxSize < c.curSize)) = true := by
  constructor <;> rfl

/-- C7 amended: for caches constructed with capacity `≥ 0` and call sequences
whose added values all have non-negative `Size()` (the `CacheItem` contract),
the `curSize` field is at most the capacity after every completed public call,
in both variants. -/
theorem c7_amended (cap : Int) (ops : List Op) (rs : List Res) (c : LruCache)
    (hcap : 0 ≤ cap) (hnn : ops.all opSizeNonneg = true) :
    (runV1 (createLRUCache cap) ops = .ok (rs, c) → c.curSize ≤ cap) ∧
    (runV2 (createLRUCache cap) ops = .ok (rs, c) → c.curSize ≤ cap) := by
  constructor
  · intro h
    obtain ⟨_, hmono, _⟩ := runWithV1_nonneg ops hnn
      (fun i nd hl => Option.noConfusion hl) h
    exact le_trans hmono (by show (0 : Int) ≤ cap; exact hcap)
  · intro h
    obtain ⟨_, hcur, hmax⟩ := runWithV2_nonneg ops hnn
      (fun i nd hl => Option.noConfusion hl)
      (by show (0 : Int) ≤ cap; exact hcap) h
    rw [hmax] at hcur
    exact hcur

/-- C7 witness: the amended theorem applied at capacity 3 to a miss-only
sequence. -/
theorem c7_witness : (createLRUCache 3).curSize ≤ 3 :=
  (c7_amended 3 [Op.get "x"] [Res.got none] (createLRUCache 3)
    (by decide) (by decide)).1 rfl

/-- C8 counterexample: the claim says that whenever the incoming size does not
exceed capacity, `Add` returns success.  In both variants a reachable corrupt
state makes an `Add` whose size is within capacity crash with a nil-pointer
panic instead of returning: in `lrucache.go` the panic is inside the `Remove`
call that `Add` performs first (size 1 ≤ capacity 3); in `part_000` it is the
nil-tail dereference of the eviction loop (size 1 ≤ capacity 3). -/
theorem c8_counterexample :
    runV1 (createLRUCache 3)
      [Op.add "c" ⟨0, 2⟩, Op.add "a" ⟨1, 1⟩, Op.get "c", Op.add "a" ⟨2, 1⟩] =
      .error .panicked ∧
    runV2 (createLRUCache 3)
      [Op.add "b" ⟨0, 1⟩, Op.add "c" ⟨1, 1⟩, Op.get "b", Op.add "b" ⟨2, 2⟩,
       Op.add "c" ⟨3, 3⟩, Op.add "b" ⟨5, 1⟩] = .error .panicked := by
  constructor <;> rfl

/-- C8 amended: restricted to calls that return (no panic), the error
discipline is exactly as claimed: a completed call returns `ItemTooLarge` if
and only if it is an `Add` whose incoming `Size()` exceeds the capacity; in
particular completed `Get` and `Remove` calls never produce an error.  For
`lrucache.go` this holds from every state; for `part_000` from every state
reachable from `CreateLRUCache` (the same-value fast path skips the size
check, but every stored value already passed it). -/
theorem c8_amended :
    (∀ (c c2 : LruCache) (op : Op) (r : Res), stepV1 c op = .ok (r, c2) →
      (r = Res.addErr ↔ ∃ k v, op = Op.add k v ∧ c.maxSize < v.sz)) ∧
    (∀ (cap : Int) (ops : List Op) (rs : List Res) (c : LruCache) (op : Op) (r : Res)
      (c2 : LruCache), runV2 (createLRUCache cap) ops = .ok (rs, c) →
      stepV2 c op = .ok (r, c2) →
      (r = Res.addErr ↔ ∃ k v, op = Op.add k v ∧ cap < v.sz)) := by
  constructor
  · intro c c2 op r h
    obtain ⟨_, hadd, hget, hrem, _⟩ := stepV1_ok h
    cases op with
    | add k v =>
      rw [hadd k v rfl]
      by_cases hlt : c.maxSize < v.sz
      · rw [if_pos hlt]
        simp only [true_iff]
        exact ⟨k, v, rfl, hlt⟩
      · rw [if_neg hlt]
        constructor
        · intro hc
          exact absurd hc (by simp)
        · rintro ⟨k2, v2, heq, hlt2⟩
          obtain ⟨rfl, rfl⟩ : k = k2 ∧ v = v2 := by
            cases heq
            exact ⟨rfl, rfl⟩
          exact absurd hlt2 hlt
    | get k =>
      obtain ⟨o, rfl⟩ := hget k rfl
      simp
    | rem k =>
      rw [hrem k rfl]
      simp
  · intro cap ops rs c op r c2 hrun h
    have hI : Inv2 cap c := runWithV2_inv2 ops (inv2_create cap) hrun
    obtain ⟨_, hadd, hget, hrem⟩ := stepV2_ok hI h
    cases op with
    | add k v =>
      rw [hadd k v rfl]
      by_cases hlt : cap < v.sz
      · rw [if_pos hlt]
        simp only [true_iff]
        exact ⟨k, v, rfl, hlt⟩
      · rw [if_neg hlt]
        constructor
        · intro hc
          exact absurd hc (by simp)
        · rintro ⟨k2, v2, heq, hlt2⟩
          obtain ⟨rfl, rfl⟩ : k = k2 ∧ v = v2 := by
            cases heq
            exact ⟨rfl, rfl⟩
          exact absurd hlt2 hlt
    | get k =>
      obtain ⟨o, rfl⟩ := hget k rfl
      simp
    | rem k =>
      rw [hrem k rfl]
      simp

/-- C8 witness: the amended theorem applied to a concrete oversized `Add` on
`lrucache.go` (capacity 3, size 9) and to a concrete `Get` on a fresh
`part_000` cache of capacity 5. -/
theorem c8_witness :
    (Res.addErr = Res.addErr ↔
      ∃ k v, Op.add "k" (⟨0, 9⟩ : CacheItem) = Op.add k v ∧
        (createLRUCache 3).maxSize < v.sz) ∧
    (Res.got none = Res.addErr ↔
      ∃ k v, Op.get "k" = Op.add k v ∧ (5 : Int) < v.sz) :=
  ⟨c8_amended.1 (createLRUCache 3)
      { heap := [(0, ⟨⟨0, 9⟩, "k", none, none⟩)], nextId := 1, keyValMap := [],
        head := none, tail := none, maxSize := 3, curSize := 0 }
      (Op.add "k" ⟨0, 9⟩) Res.addErr rfl,
   c8_amended.2 5 [] [] (createLRUCache 5) (Op.get "k") (Res.got none)
      (createLRUCache 5) rfl rfl⟩

/-- C9: in the `part_000` variant, on any state reachable from
`CreateLRUCache`, when key `k` already maps to an entry whose stored payload is
the very value `v` being added, `Add` returns success — with no size
hypothesis, reflecting that the fast path performs no size check and no
eviction — and its only observable effect is to move that entry to the head:
`curSize` is unchanged and the presence and value stored under every key is
unchanged. -/
theorem c9_fastpath (cap : Int) (ops : List Op) (rs : List Res) (c : LruCache)
    (k : String) (v : CacheItem) (i : Nat) (fuel : Nat)
    (hrun : runV2 (createLRUCache cap) ops = .ok (rs, c))
    (hmk : c.keyValMap.lookup k = some i)
    (hval : (c.heap.lookup i).map LruNode.cacheItem = some v) :
    ∃ c', V2.add fuel c k v = .ok (true, c') ∧
      c'.curSize = c.curSize ∧
      c'.head = some i ∧
      (∀ k2, lookupValue c' k2 = lookupValue c k2) := by
  have hI : Inv2 cap c := runWithV2_inv2 ops (inv2_create cap) hrun
  obtain ⟨nd, hnd, hkey⟩ := hI.coher k i hmk
  have hv : nd.cacheItem = v := by
    rw [hnd] at hval
    simpa using hval
  obtain ⟨c1, hirEq, hcur1, hmap1, hmax1, hnid1, hci1⟩ := itemRemove_spec c i nd hnd
  obtain ⟨nd3, hnd3, hci3, hkey3⟩ := eqCI_lookup_rev hci1 hnd
  obtain ⟨c2, hiaEq, hcur2, hmap2, hmax2, hnid2, hhead2, hciA⟩ := itemAdd_spec c1 i nd3 hnd3
  refine ⟨c2, ?_, ?_, hhead2, ?_⟩
  · unfold V2.add
    rw [hmk]
    simp only [readNode, hnd, deref, ok_bind, hirEq]
    rw [if_pos hv.symm, hiaEq]
    simp only [ok_bind]
  · rw [hcur2, hcur1, hci3]
    ring
  · intro k2
    have hciFull : eqCI c2.heap c.heap := eqCI_trans hciA hci1
    unfold lookupValue
    rw [hmap2, hkey3, hkey, lookup_mapInsert, hmap1, hkey]
    by_cases hkk : k2 = k
    · subst hkk
      rw [if_pos rfl, hmk]
      simp only [Option.some_bind]
      exact eqCI_cacheItem hciFull i
    · rw [if_neg hkk, lookup_mapDelete, if_neg hkk]
      cases hlk : c.keyValMap.lookup k2 with
      | none => rfl
      | some j =>
        simp only [Option.some_bind]
        exact eqCI_cacheItem hciFull j

/-- C9 witness: the fast-path theorem applied to the concrete reachable state
obtained by adding `"a"` (size 1) to a fresh capacity-1 cache, re-adding the
same value. -/
theorem c9_witness :
    ∃ c', V2.add 5 { heap := [(0, ⟨⟨7, 1⟩, "a", none, none⟩)], nextId := 1, keyValMap := [("a", 0)], head := some 0, tail := some 0, maxSize := 1, curSize := 1 } "a" ⟨7, 1⟩ = .ok (true, c') ∧
      c'.curSize = ({ heap := [(0, ⟨⟨7, 1⟩, "a", none, none⟩)], nextId := 1, keyValMap := [("a", 0)], head := some 0, tail := some 0, maxSize := 1, curSize := 1 } : LruCache).curSize ∧
      c'.head = some 0 ∧
      (∀ k2, lookupValue c' k2 = lookupValue { heap := [(0, ⟨⟨7, 1⟩, "a", none, none⟩)], nextId := 1, keyValMap := [("a", 0)], head := some 0, tail := some 0, maxSize := 1, curSize := 1 } k2) :=
  c9_fastpath 1 [Op.add "a" ⟨7, 1⟩] [Res.addOk] { heap := [(0, ⟨⟨7, 1⟩, "a", none, none⟩)], nextId := 1, keyValMap := [("a", 0)], head := some 0, tail := some 0, maxSize := 1, curSize := 1 } "a" ⟨7, 1⟩ 0 5 rfl rfl rfl

/-- C10 counterexample: the two variants are not observably equivalent.  With
capacity 1, after `Add "a"` then `Add "b"` (size 1 each), `Get "a"` finds the
item in the `lrucache.go` variant (it never evicts, since its `Add` never
increments `curSize`) but misses in the `part_000` variant (which evicted
`"a"` to make room for `"b"`). -/
theorem c10_counterexample :
    resultsOf (runV1 (createLRUCache 1)
      [Op.add "a" ⟨0, 1⟩, Op.add "b" ⟨1, 1⟩, Op.get "a"]) =
      some [Res.addOk, Res.addOk, Res.got (some ⟨0, 1⟩)] ∧
    resultsOf (runV2 (createLRUCache 1)
      [Op.add "a" ⟨0, 1⟩, Op.add "b" ⟨1, 1⟩, Op.get "a"]) =
      some [Res.addOk, Res.addOk, Res.got none] := by
  constructor <;> rfl

/-- C10 amended: what survives of the equivalence claim is the `Add` error
discipline: for every call sequence applied to both variants at the same
capacity, whenever both runs complete, corresponding `Add` calls return
identical success-or-`ItemTooLarge` outcomes.  `Get` results may differ, per
the counterexample. -/
theorem c10_amended (cap : Int) (ops : List Op) (rs1 rs2 : List Res)
    (f1 f2 : LruCache)
    (h1 : runV1 (createLRUCache cap) ops = .ok (rs1, f1))
    (h2 : runV2 (createLRUCache cap) ops = .ok (rs2, f2)) :
    addResults rs1 = addResults rs2 :=
  runBoth_addResults ops rfl (inv2_create cap) h1 h2

/-- C10 witness: the amended theorem applied to the counterexample trace
itself — the `Add` outcomes agree ([ok, ok]) even though the `Get` results
differ. -/
theorem c10_witness :
    addResults [Res.addOk, Res.addOk, Res.got (some ⟨0, 1⟩)] =
      addResults [Res.addOk, Res.addOk, Res.got none] :=
  c10_amended 1 [Op.add "a" ⟨0, 1⟩, Op.add "b" ⟨1, 1⟩, Op.get "a"]
    [Res.addOk, Res.addOk, Res.got (some ⟨0, 1⟩)]
    [Res.addOk, Res.addOk, Res.got none]
    { heap := [(1, ⟨⟨1, 1⟩, "b", some 0, none⟩), (0, ⟨⟨0, 1⟩, "a", none, some 1⟩)],
      nextId := 2, keyValMap := [("b", 1), ("a", 0)], head := some 0,
      tail := some 0, maxSize := 1, curSize := 0 }
    { heap := [(1, ⟨⟨1, 1⟩, "b", none, none⟩), (0, ⟨⟨0, 1⟩, "a", none, none⟩)],
      nextId := 2, keyValMap := [("b", 1)], head := some 1, tail := some 1,
      maxSize := 1, curSize := 1 }
    rfl rfl
